import Mathlib

/-!
Shallow embedding of the `vault_n8n` secret-storage engine
(`app/crypto.py`, `app/db.py`, `app/api/routes.py`, `app/startup.py`).

Bytes are modelled as `Nat` values `< 256`; Python strings operating at the
character level are modelled as `List Char` (wrapped in `String` where
convenient).  The AES-GCM primitive and HKDF-Expand from the `cryptography`
library are modelled abstractly: GCM is a keystream XOR (CTR core) together
with a tag function of (key, nonce, ciphertext); these are parameters of the
development, packaged in `GCMPrims`, constrained only by the length/byte
bounds the real primitives guarantee.  Everything the repository's own code
does around them (hex key parsing, salt/nonce handling, base64 framing,
splitting, error wrapping, SQL-level store behaviour) is embedded directly
from the source.
-/

namespace Vault

/-- URL-safe base64 alphabet: index (0..63) to character, as used by
`base64.urlsafe_b64encode`. -/
def b64Char (n : Nat) : Char :=
  if n < 26 then Char.ofNat (65 + n)
  else if n < 52 then Char.ofNat (97 + (n - 26))
  else if n < 62 then Char.ofNat (48 + (n - 52))
  else if n = 62 then '-'
  else '_'

/-- URL-safe base64 alphabet: character to index, `none` for a character
outside the alphabet. -/
def b64Index (c : Char) : Option Nat :=
  let n := c.toNat
  if 65 ≤ n ∧ n ≤ 90 then some (n - 65)
  else if 97 ≤ n ∧ n ≤ 122 then some (n - 71)
  else if 48 ≤ n ∧ n ≤ 57 then some (n + 4)
  else if n = 45 then some 62
  else if n = 95 then some 63
  else none

/-- Python `base64.urlsafe_b64encode` on a byte list, producing the character list
of the encoded string (standard `=` padding). -/
def b64encodeList : List Nat → List Char
  | [] => []
  | [a] => [b64Char (a / 4), b64Char (a % 4 * 16), '=', '=']
  | [a, b] => [b64Char (a / 4), b64Char (a % 4 * 16 + b / 16), b64Char (b % 16 * 4), '=']
  | a :: b :: c :: rest =>
      b64Char (a / 4) :: b64Char (a % 4 * 16 + b / 16) ::
      b64Char (b % 16 * 4 + c / 64) :: b64Char (c % 64) :: b64encodeList rest

/-- Python `base64.urlsafe_b64decode` on a character list: groups of four alphabet
characters, `=`-padding allowed only in the final group; `none` on malformed
input (models the `binascii.Error` raised by Python). -/
def b64decodeList : List Char → Option (List Nat)
  | [] => some []
  | c1 :: c2 :: c3 :: c4 :: rest =>
      match b64Index c1, b64Index c2 with
      | some i1, some i2 =>
          if c3 = '=' then
            if c4 = '=' ∧ rest = [] then some [i1 * 4 + i2 / 16] else none
          else
            match b64Index c3 with
            | some i3 =>
                if c4 = '=' then
                  if rest = [] then some [i1 * 4 + i2 / 16, i2 % 16 * 16 + i3 / 4] else none
                else
                  match b64Index c4 with
                  | some i4 =>
                      (b64decodeList rest).map
                        (fun r => (i1 * 4 + i2 / 16) :: (i2 % 16 * 16 + i3 / 4) ::
                                  (i3 % 4 * 64 + i4) :: r)
                  | none => none
            | none => none
      | _, _ => none
  | _ => none

/-- Python `str.split('.')` on a character list: splits at every `'.'`,
keeping empty segments; the empty string splits to one empty segment. -/
def splitDot : List Char → List (List Char)
  | [] => [[]]
  | c :: rest =>
      if c = '.' then [] :: splitDot rest
      else
        match splitDot rest with
        | [] => [[c]]
        | s :: ss => (c :: s) :: ss

/-- Value of a hexadecimal digit, `none` for a non-hex character
(models the character handling of `bytes.fromhex`). -/
def hexDigitVal (c : Char) : Option Nat :=
  let n := c.toNat
  if 48 ≤ n ∧ n ≤ 57 then some (n - 48)
  else if 97 ≤ n ∧ n ≤ 102 then some (n - 87)
  else if 65 ≤ n ∧ n ≤ 70 then some (n - 55)
  else none

/-- Python `bytes.fromhex` on a character list: pairs of hex digits to bytes,
`none` (models `ValueError`) on an odd length or a non-hex character. -/
def bytesFromHex : List Char → Option (List Nat)
  | [] => some []
  | [_] => none
  | c1 :: c2 :: rest =>
      match hexDigitVal c1, hexDigitVal c2, bytesFromHex rest with
      | some h, some l, some bs => some ((h * 16 + l) :: bs)
      | _, _, _ => none

/-- Byte-wise XOR of two byte lists (the CTR core of GCM). -/
def xorBytes (a b : List Nat) : List Nat := List.zipWith Nat.xor a b

/-- Abstract cryptographic primitives used by `app/crypto.py` through the
`cryptography` library: HKDF-Expand (as invoked by `derive_key` on
`master_key + salt`), the GCM keystream (CTR core, giving
`ciphertext = keystream XOR plaintext`), and the GCM tag of
(derived key, nonce, ciphertext).  Only the interface properties that the
real primitives guarantee are assumed: outputs are bytes and have the
documented lengths (`AES_KEY_LENGTH = 32`, tag length `GCM_TAG_LENGTH = 16`). -/
structure GCMPrims where
  hkdfExpand : List Nat → List Nat
  keystream : List Nat → List Nat → Nat → List Nat
  gcmTag : List Nat → List Nat → List Nat → List Nat
  hkdf_len : ∀ ikm, (hkdfExpand ikm).length = 32
  ks_len : ∀ k n l, (keystream k n l).length = l
  ks_bytes : ∀ k n l, ∀ b ∈ keystream k n l, b < 256
  tag_len : ∀ k n c, (gcmTag k n c).length = 16
  tag_bytes : ∀ k n c, ∀ b ∈ gcmTag k n c, b < 256

/-- Function `derive_key` of `app/crypto.py`: HKDF-Expand over the concatenation
`master_key + salt` (the non-standard construction kept for compatibility). -/
def derive_key (P : GCMPrims) (master_key salt : List Nat) : List Nat :=
  P.hkdfExpand (master_key ++ salt)

/-- The causes with which `decrypt_data` raises `DecryptionError`. -/
inductive DecryptionError where
  | formatError
  | decodeError
  | authError
  | genericError
  deriving DecidableEq, Repr

/-- Outcome of a call to `decrypt_data`: success, a raised `DecryptionError`,
or a raised exception of any other type (e.g. the `ValueError` of
`bytes.fromhex` or of the `modes.GCM` constructor, both outside the
`try` blocks of `decrypt_data`). -/
inductive DecryptResult where
  | ok (plain : List Nat)
  | decErr (e : DecryptionError)
  | otherErr
  deriving DecidableEq, Repr

/-- Function `encrypt_data` of `app/crypto.py`.  The randomly generated
`os.urandom` salt (16 bytes) and nonce (12 bytes) are inputs of the model;
the plaintext is its UTF-8 byte encoding.  Returns `none` when
`bytes.fromhex(encryption_key_hex)` raises (`ValueError`), otherwise the
blob string `b64(salt).b64(nonce).b64(ciphertext).b64(tag)`. -/
def encrypt_data (P : GCMPrims) (salt nonce plain : List Nat)
    (encryption_key_hex : String) : Option String :=
  match bytesFromHex encryption_key_hex.data with
  | none => none
  | some master_key =>
      let derived_key := derive_key P master_key salt
      let cipher_text := xorBytes (P.keystream derived_key nonce plain.length) plain
      let tag := P.gcmTag derived_key nonce cipher_text
      some (String.mk (b64encodeList salt ++ '.' :: b64encodeList nonce ++
            '.' :: b64encodeList cipher_text ++ '.' :: b64encodeList tag))

/-- The base64-decoding stage of `decrypt_data`: the four segments of a
blob that already split into exactly four parts. -/
def decodeParts (parts : List (List Char)) :
    Option (List Nat × List Nat × List Nat × List Nat) :=
  match parts with
  | [p0, p1, p2, p3] =>
      match b64decodeList p0, b64decodeList p1, b64decodeList p2, b64decodeList p3 with
      | some salt, some nonce, some ct, some tag => some (salt, nonce, ct, tag)
      | _, _, _, _ => none
  | _ => none

/-- Parameter validation performed by the `modes.GCM` constructor of the
`cryptography` library (outside any `try` in `decrypt_data`): the IV must
be 8..128 bytes and the tag at least `min_tag_length = 16` bytes; a
violation raises `ValueError`. -/
def gcmParamsOk (nonce tag : List Nat) : Bool :=
  decide (8 ≤ nonce.length) && decide (nonce.length ≤ 128) && decide (16 ≤ tag.length)

/-- Function `decrypt_data` of `app/crypto.py`:
1. split on `'.'`; a segment count other than 4 raises
   `DecryptionError` (format);
2. base64-decode the four segments inside `try`; failure raises
   `DecryptionError` (decode);
3. `bytes.fromhex` on the key and the `modes.GCM` constructor run outside
   any `try`: their `ValueError`s propagate as non-`DecryptionError`s;
4. GCM decryption: the tag is recomputed over the ciphertext; a mismatch
   (`InvalidTag` at `finalize`) raises `DecryptionError` (authentication)
   and no plaintext is returned; on success the XOR-decrypted bytes are
   returned. -/
def decrypt_data (P : GCMPrims) (encrypted_text : String)
    (encryption_key_hex : String) : DecryptResult :=
  let parts := splitDot encrypted_text.data
  if parts.length ≠ 4 then .decErr .formatError
  else
    match decodeParts parts with
    | none => .decErr .decodeError
    | some (salt, nonce, cipher_text, tag) =>
        match bytesFromHex encryption_key_hex.data with
        | none => .otherErr
        | some master_key =>
            let derived_key := derive_key P master_key salt
            if gcmParamsOk nonce tag then
              if P.gcmTag derived_key nonce cipher_text = tag then
                .ok (xorBytes (P.keystream derived_key nonce cipher_text.length) cipher_text)
              else .decErr .authError
            else .otherErr

/-! ## The secret store (`app/db.py`) -/

/-- A row of the `secrets` table: `id INTEGER PRIMARY KEY AUTOINCREMENT`,
`key TEXT UNIQUE COLLATE BINARY`, `value`, `created_at`, `updated_at`
(timestamps modelled as `Nat`). -/
structure SecretRow where
  id : Nat
  key : String
  value : String
  created_at : Nat
  updated_at : Nat
  deriving DecidableEq, Repr

/-- The database state: the `secrets` table in row order, plus the
`secrets_fts` FTS5 index (rowid, key), maintained by the
`secrets_ai`/`secrets_ad`/`secrets_au` triggers of `init_db`. -/
structure DBState where
  secrets : List SecretRow
  fts : List (Nat × String)
  deriving DecidableEq, Repr

/-- The next `AUTOINCREMENT` id for the `secrets` table. -/
def nextId (st : DBState) : Nat :=
  (st.secrets.map SecretRow.id).foldr max 0 + 1

/-- Function `add_or_update_secret` of `app/db.py`:
`INSERT INTO secrets (key, value) VALUES (?, ?) ON CONFLICT(key) DO UPDATE
SET value = excluded.value, updated_at = CURRENT_TIMESTAMP`.
`now` is `CURRENT_TIMESTAMP`.  The FTS index is kept in sync by the
insert/update triggers. -/
def add_or_update_secret (st : DBState) (key value : String) (now : Nat) : DBState :=
  if st.secrets.any (fun r => r.key = key) then
    { secrets := st.secrets.map (fun r =>
        if r.key = key then { r with value := value, updated_at := now } else r)
      fts := st.fts }
  else
    { secrets := st.secrets ++
        [{ id := nextId st, key := key, value := value, created_at := now, updated_at := now }]
      fts := st.fts ++ [(nextId st, key)] }

/-- Function `get_secrets_by_keys` of `app/db.py`:
`SELECT key, value FROM secrets WHERE key IN (...)`; an empty key list
returns `[]` before touching the database. -/
def get_secrets_by_keys (st : DBState) (keys : List String) : List (String × String) :=
  if keys.isEmpty then []
  else (st.secrets.filter (fun r => r.key ∈ keys)).map (fun r => (r.key, r.value))

/-- SQLite `LIKE` matching with `PRAGMA case_sensitive_like = ON` and no
`ESCAPE` clause: `%` matches any (possibly empty) run of characters, `_`
matches exactly one character, everything else matches itself
case-sensitively. -/
def sqlLike : List Char → List Char → Bool
  | [], s => s.isEmpty
  | p :: ps, s =>
      if p = '%' then (s :: s.tails).any (fun t => sqlLike ps t)
      else
        match s with
        | [] => false
        | c :: s' => (p = '_' || p = c) && sqlLike ps s'

/-- The `pattern.replace('*', '%')` step of `find_secrets_by_like_pattern`. -/
def starToPercent (pattern : List Char) : List Char :=
  pattern.map (fun c => if c = '*' then '%' else c)

/-- Function `find_secrets_by_like_pattern` of `app/db.py`:
`SELECT key, value FROM secrets WHERE key LIKE ?` with the `*`→`%`
translated pattern and case-sensitive `LIKE`. -/
def find_secrets_by_like_pattern (st : DBState) (pattern : String) :
    List (String × String) :=
  (st.secrets.filter (fun r => sqlLike (starToPercent pattern.data) r.key.data)).map
    (fun r => (r.key, r.value))

/-- Function `delete_secrets_by_keys` of `app/db.py`:
`DELETE FROM secrets WHERE key IN (...)`, returning `cursor.rowcount`;
an empty key list returns 0 before touching the database.  The FTS index
entries of deleted rows are removed by the delete trigger. -/
def delete_secrets_by_keys (st : DBState) (keys : List String) : DBState × Nat :=
  if keys.isEmpty then (st, 0)
  else
    ({ secrets := st.secrets.filter (fun r => r.key ∉ keys)
       fts := st.fts.filter (fun e =>
                (st.secrets.filter (fun r => r.key ∈ keys)).all (fun r => r.id ≠ e.1)) },
     (st.secrets.filter (fun r => r.key ∈ keys)).length)

/-- Function `get_first_secret_value` of `app/db.py`:
`SELECT value FROM secrets LIMIT 1`, `None` when there is no row. -/
def get_first_secret_value (st : DBState) : Option String :=
  st.secrets.head?.map SecretRow.value

/-! ## The API resolution paths (`app/api/routes.py`) -/

/-- The resolution performed by the read path `get_secrets`: literal keys
(no `*`) through `get_secrets_by_keys`, then each `*`-pattern through
`find_secrets_by_like_pattern`, results concatenated in that order with
no deduplication. -/
def resolveRead (st : DBState) (key_list : List String) : List (String × String) :=
  let exact_keys := key_list.filter (fun k => ¬ '*' ∈ k.data)
  let like_patterns := key_list.filter (fun k => '*' ∈ k.data)
  get_secrets_by_keys st exact_keys ++
    like_patterns.flatMap (fun p => find_secrets_by_like_pattern st p)

/-- The resolution performed by the delete path `delete_secrets`: like
`resolveRead`, but each pattern's results are filtered against the rows
already collected (`if s not in found_secrets`). -/
def resolveDelete (st : DBState) (key_list : List String) : List (String × String) :=
  let exact_keys := key_list.filter (fun k => ¬ '*' ∈ k.data)
  let like_patterns := key_list.filter (fun k => '*' ∈ k.data)
  like_patterns.foldl
    (fun acc p => acc ++ (find_secrets_by_like_pattern st p).filter (fun s => s ∉ acc))
    (get_secrets_by_keys st exact_keys)

/-- The delete performed by `delete_secrets` after resolution:
`delete_secrets_by_keys` over the first components of the resolved rows. -/
def deleteResolved (st : DBState) (key_list : List String) : DBState × Nat :=
  let found := resolveDelete st key_list
  if found.isEmpty then (st, 0)
  else delete_secrets_by_keys st (found.map Prod.fst)

/-! ## The startup key-integrity check (`app/startup.py`) -/

/-- Outcome of `check_encryption_key`: normal return, `sys.exit(1)`, or an
exception propagating to the caller. -/
inductive StartupResult where
  | passed
  | fatalExit
  | surfaced
  deriving DecidableEq, Repr

/-- Function `check_encryption_key` of `app/startup.py`: fetch the first stored
value; if there is none, return normally.  Otherwise decrypt it:
success returns normally; a `DecryptionError` (any cause) hits the
`except DecryptionError` handler and calls `sys.exit(1)`; any other
exception is not caught and propagates to the caller. -/
def check_encryption_key (P : GCMPrims) (st : DBState)
    (encryption_key_hex : String) : StartupResult :=
  match get_first_secret_value st with
  | none => .passed
  | some v =>
      match decrypt_data P v encryption_key_hex with
      | .ok _ => .passed
      | .decErr _ => .fatalExit
      | .otherErr => .surfaced

/-! ## A concrete instantiation of the abstract primitives, used to
evaluate the theorems on concrete inputs. -/

/-- A concrete `GCMPrims` instance (a stand-in keystream/tag pair with the
required lengths and byte bounds). -/
def modelPrims : GCMPrims where
  hkdfExpand := fun _ => List.replicate 32 0
  keystream := fun k n l => List.replicate l ((k.sum + n.sum + 165) % 256)
  gcmTag := fun k n c => List.replicate 16 ((k.sum + n.sum + c.sum) % 256)
  hkdf_len := fun _ => List.length_replicate 32 0
  ks_len := fun _ _ l => List.length_replicate l _
  ks_bytes := by
    intro k n l b hb
    rw [List.eq_of_mem_replicate hb]
    exact Nat.mod_lt _ (by omega)
  tag_len := fun _ _ _ => List.length_replicate 16 _
  tag_bytes := by
    intro k n c b hb
    rw [List.eq_of_mem_replicate hb]
    exact Nat.mod_lt _ (by omega)

/-- A valid 64-hex-character master key for concrete evaluations. -/
def key64 : String :=
  "0123456789abcdef0123456789abcdef0123456789abcdef0123456789abcdef"

/-- The `(key, value)` projections of all rows of the store. -/
def rowsOf (st : DBState) : List (String × String) :=
  st.secrets.map (fun r => (r.key, r.value))


/-! ## Base64 lemmas -/

theorem b64Index_b64Char : ∀ n < 64, b64Index (b64Char n) = some n := by decide

theorem b64Char_ne_eq : ∀ n < 64, b64Char n ≠ '=' := by decide

theorem b64Char_ne_dot : ∀ n < 64, b64Char n ≠ '.' := by decide

theorem b64decode_encode : ∀ bs : List Nat, (∀ b ∈ bs, b < 256) →
    b64decodeList (b64encodeList bs) = some bs
  | [], _ => rfl
  | [a], h => by
      have ha : a < 256 := h a (by simp)
      have e1 := b64Index_b64Char (a / 4) (by omega)
      have e2 := b64Index_b64Char (a % 4 * 16) (by omega)
      simp only [b64encodeList, b64decodeList, e1, e2]
      simp
      omega
  | [a, b], h => by
      have ha : a < 256 := h a (by simp)
      have hb : b < 256 := h b (by simp)
      have e1 := b64Index_b64Char (a / 4) (by omega)
      have e2 := b64Index_b64Char (a % 4 * 16 + b / 16) (by omega)
      have e3 := b64Index_b64Char (b % 16 * 4) (by omega)
      have n3 := b64Char_ne_eq (b % 16 * 4) (by omega)
      simp only [b64encodeList, b64decodeList, e1, e2, e3, if_neg n3]
      simp
      constructor <;> omega
  | a :: b :: c :: rest, h => by
      have ha : a < 256 := h a (by simp)
      have hb : b < 256 := h b (by simp)
      have hc : c < 256 := h c (by simp)
      have ih := b64decode_encode rest (fun x hx => h x (by simp [hx]))
      have e1 := b64Index_b64Char (a / 4) (by omega)
      have e2 := b64Index_b64Char (a % 4 * 16 + b / 16) (by omega)
      have e3 := b64Index_b64Char (b % 16 * 4 + c / 64) (by omega)
      have e4 := b64Index_b64Char (c % 64) (by omega)
      have n3 := b64Char_ne_eq (b % 16 * 4 + c / 64) (by omega)
      have n4 := b64Char_ne_eq (c % 64) (by omega)
      simp only [b64encodeList, b64decodeList, e1, e2, e3, e4, if_neg n3, if_neg n4, ih,
        Option.map_some', Option.some.injEq, List.cons.injEq, and_true]
      omega

theorem b64encode_no_dot : ∀ bs : List Nat, (∀ b ∈ bs, b < 256) →
    '.' ∉ b64encodeList bs
  | [], _ => by simp [b64encodeList]
  | [a], h => by
      have ha : a < 256 := h a (by simp)
      have d1 := b64Char_ne_dot (a / 4) (by omega)
      have d2 := b64Char_ne_dot (a % 4 * 16) (by omega)
      simp only [b64encodeList, List.mem_cons, List.not_mem_nil, or_false, not_or]
      refine ⟨fun hd => d1 hd.symm, fun hd => d2 hd.symm, by decide, by decide⟩
  | [a, b], h => by
      have ha : a < 256 := h a (by simp)
      have hb : b < 256 := h b (by simp)
      have d1 := b64Char_ne_dot (a / 4) (by omega)
      have d2 := b64Char_ne_dot (a % 4 * 16 + b / 16) (by omega)
      have d3 := b64Char_ne_dot (b % 16 * 4) (by omega)
      simp only [b64encodeList, List.mem_cons, List.not_mem_nil, or_false, not_or]
      exact ⟨fun hd => d1 hd.symm, fun hd => d2 hd.symm, fun hd => d3 hd.symm, by decide⟩
  | a :: b :: c :: rest, h => by
      have ha : a < 256 := h a (by simp)
      have hb : b < 256 := h b (by simp)
      have hc : c < 256 := h c (by simp)
      have ih := b64encode_no_dot rest (fun x hx => h x (by simp [hx]))
      have d1 := b64Char_ne_dot (a / 4) (by omega)
      have d2 := b64Char_ne_dot (a % 4 * 16 + b / 16) (by omega)
      have d3 := b64Char_ne_dot (b % 16 * 4 + c / 64) (by omega)
      have d4 := b64Char_ne_dot (c % 64) (by omega)
      simp only [b64encodeList, List.mem_cons, not_or]
      exact ⟨fun hd => d1 hd.symm, fun hd => d2 hd.symm, fun hd => d3 hd.symm,
        fun hd => d4 hd.symm, ih⟩

/-! ## splitDot lemmas -/

theorem splitDot_no_dot : ∀ s : List Char, '.' ∉ s → splitDot s = [s]
  | [], _ => rfl
  | c :: rest, h => by
      have hc : c ≠ '.' := fun hc => h (by simp [hc])
      have ih := splitDot_no_dot rest (fun hr => h (by simp [hr]))
      simp [splitDot, if_neg hc, ih]

theorem splitDot_append_dot : ∀ s t : List Char, '.' ∉ s →
    splitDot (s ++ '.' :: t) = s :: splitDot t
  | [], t, _ => by simp [splitDot]
  | c :: rest, t, h => by
      have hc : c ≠ '.' := fun hc => h (by simp [hc])
      have ih := splitDot_append_dot rest t (fun hr => h (by simp [hr]))
      simp only [List.cons_append, splitDot, if_neg hc, List.append_eq, ih]

/-! ## XOR lemmas -/

theorem xor_lt_256 {a b : Nat} (ha : a < 256) (hb : b < 256) : a ^^^ b < 256 := by
  have h := Nat.bitwise_lt (f := bne) (n := 8) (x := a) (y := b) (by omega) (by omega)
  simpa [HXor.hXor, Xor.xor, Nat.xor] using h

theorem xorBytes_cancel : ∀ ks p : List Nat, ks.length = p.length →
    xorBytes ks (xorBytes ks p) = p
  | [], [], _ => rfl
  | [], _ :: _, h => by simp at h
  | _ :: _, [], h => by simp at h
  | k :: ks, x :: p, h => by
      have ih := xorBytes_cancel ks p (by simpa using h)
      simp only [xorBytes] at ih ⊢
      simp only [List.zipWith, List.cons.injEq]
      exact ⟨Nat.xor_cancel_left k x, ih⟩

theorem xorBytes_length (a b : List Nat) : (xorBytes a b).length = min a.length b.length := by
  simp [xorBytes]

theorem xorBytes_bytes : ∀ a b : List Nat, (∀ x ∈ a, x < 256) → (∀ x ∈ b, x < 256) →
    ∀ x ∈ xorBytes a b, x < 256
  | [], _, _, _ => by simp [xorBytes]
  | _ :: _, [], _, _ => by simp [xorBytes]
  | k :: a, y :: b, ha, hb => by
      intro x hx
      simp only [xorBytes, List.zipWith, List.mem_cons] at hx
      rcases hx with h | h
      · subst h
        exact xor_lt_256 (ha k (by simp)) (hb y (by simp))
      · exact xorBytes_bytes a b (fun z hz => ha z (by simp [hz]))
          (fun z hz => hb z (by simp [hz])) x h

/-! ## Blob framing lemmas -/

theorem string_data_mk (l : List Char) : (String.mk l).data = l := rfl

theorem splitDot_blob (e1 e2 e3 e4 : List Char)
    (h1 : '.' ∉ e1) (h2 : '.' ∉ e2) (h3 : '.' ∉ e3) (h4 : '.' ∉ e4) :
    splitDot (e1 ++ '.' :: (e2 ++ '.' :: (e3 ++ '.' :: e4))) = [e1, e2, e3, e4] := by
  rw [splitDot_append_dot _ _ h1, splitDot_append_dot _ _ h2, splitDot_append_dot _ _ h3,
    splitDot_no_dot _ h4]

/-- The split of an `encrypt_data` blob: exactly the four base64 segments. -/
theorem encrypt_blob_split (P : GCMPrims) (salt nonce plain : List Nat) (key : String)
    (mk : List Nat) (hmk : bytesFromHex key.data = some mk)
    (hsb : ∀ b ∈ salt, b < 256) (hnb : ∀ b ∈ nonce, b < 256)
    (hpb : ∀ b ∈ plain, b < 256) :
    ∃ out, encrypt_data P salt nonce plain key = some out ∧
      splitDot out.data =
        [b64encodeList salt, b64encodeList nonce,
         b64encodeList (xorBytes
           (P.keystream (derive_key P mk salt) nonce plain.length) plain),
         b64encodeList (P.gcmTag (derive_key P mk salt) nonce
           (xorBytes (P.keystream (derive_key P mk salt) nonce plain.length) plain))] := by
  have hctb : ∀ x ∈ xorBytes (P.keystream (derive_key P mk salt) nonce plain.length) plain,
      x < 256 :=
    xorBytes_bytes _ _ (P.ks_bytes _ _ _) hpb
  have htgb := P.tag_bytes (derive_key P mk salt) nonce
    (xorBytes (P.keystream (derive_key P mk salt) nonce plain.length) plain)
  have henc : encrypt_data P salt nonce plain key =
      some (String.mk (b64encodeList salt ++ '.' :: b64encodeList nonce ++
        '.' :: b64encodeList (xorBytes
          (P.keystream (derive_key P mk salt) nonce plain.length) plain) ++
        '.' :: b64encodeList (P.gcmTag (derive_key P mk salt) nonce
          (xorBytes (P.keystream (derive_key P mk salt) nonce plain.length) plain)))) := by
    simp only [encrypt_data, hmk]
  refine ⟨_, henc, ?_⟩
  rw [string_data_mk]
  simpa only [List.cons_append, List.append_assoc] using
    splitDot_blob _ _ _ _ (b64encode_no_dot _ hsb) (b64encode_no_dot _ hnb)
      (b64encode_no_dot _ hctb) (b64encode_no_dot _ htgb)

/-- Decrypting an `encrypt_data` blob with the same key recovers the
plaintext bytes. -/
theorem decrypt_encrypt_eq (P : GCMPrims) (salt nonce plain : List Nat) (key : String)
    (hk : (bytesFromHex key.data).isSome)
    (hs : salt.length = 16) (hn : nonce.length = 12)
    (hsb : ∀ b ∈ salt, b < 256) (hnb : ∀ b ∈ nonce, b < 256)
    (hpb : ∀ b ∈ plain, b < 256) :
    ∃ out, encrypt_data P salt nonce plain key = some out ∧
      decrypt_data P out key = .ok plain := by
  obtain ⟨mk, hmk⟩ := Option.isSome_iff_exists.mp hk
  obtain ⟨out, henc, hsplit⟩ := encrypt_blob_split P salt nonce plain key mk hmk hsb hnb hpb
  have hctb : ∀ x ∈ xorBytes (P.keystream (derive_key P mk salt) nonce plain.length) plain,
      x < 256 :=
    xorBytes_bytes _ _ (P.ks_bytes _ _ _) hpb
  have htgb := P.tag_bytes (derive_key P mk salt) nonce
    (xorBytes (P.keystream (derive_key P mk salt) nonce plain.length) plain)
  have d1 := b64decode_encode salt hsb
  have d2 := b64decode_encode nonce hnb
  have d3 := b64decode_encode _ hctb
  have d4 := b64decode_encode _ htgb
  have hctlen : (xorBytes (P.keystream (derive_key P mk salt) nonce plain.length)
      plain).length = plain.length := by
    rw [xorBytes_length, P.ks_len, Nat.min_self]
  refine ⟨out, henc, ?_⟩
  simp only [decrypt_data, hsplit, List.length_cons, List.length_nil]
  rw [if_neg (by simp)]
  simp only [decodeParts, d1, d2, d3, d4, hmk]
  rw [if_pos (by simp [gcmParamsOk, hn, P.tag_len])]
  rw [if_pos trivial, hctlen]
  exact congrArg DecryptResult.ok (xorBytes_cancel _ _ (P.ks_len _ _ _))

/-! ## Claim theorems -/

/-- C1: for every valid 64-hex-character master key `k` and every UTF-8
string `x` (modelled by its UTF-8 byte encoding `plain`), decrypting the
blob produced by encrypting `x` under `k` with the same key `k` returns
`x`: `decrypt_data (encrypt_data plain k) k = ok plain`, for every choice
of the random 16-byte salt and 12-byte nonce. -/
theorem C1_roundtrip (P : GCMPrims) (salt nonce plain : List Nat) (key : String)
    (hk64 : key.length = 64) (hk : (bytesFromHex key.data).isSome)
    (hs : salt.length = 16) (hn : nonce.length = 12)
    (hsb : ∀ b ∈ salt, b < 256) (hnb : ∀ b ∈ nonce, b < 256)
    (hpb : ∀ b ∈ plain, b < 256) :
    ∃ out, encrypt_data P salt nonce plain key = some out ∧
      decrypt_data P out key = .ok plain :=
  decrypt_encrypt_eq P salt nonce plain key hk hs hn hsb hnb hpb

theorem C1_roundtrip_witness :
    ∃ out, encrypt_data modelPrims (List.replicate 16 7) (List.replicate 12 9)
        [104, 105] key64 = some out ∧
      decrypt_data modelPrims out key64 = .ok [104, 105] :=
  C1_roundtrip modelPrims (List.replicate 16 7) (List.replicate 12 9) [104, 105] key64
    (by decide) (by decide) (by decide) (by decide) (by decide) (by decide) (by decide)

/-- C3: for every string whose split on `'.'` does not yield exactly four
segments, `decrypt_data` fails with a `DecryptionError` of format cause,
whatever the segments contain and whatever the key is. -/
theorem C3_format_error (P : GCMPrims) (encrypted_text encryption_key_hex : String)
    (h : (splitDot encrypted_text.data).length ≠ 4) :
    decrypt_data P encrypted_text encryption_key_hex = .decErr .formatError := by
  simp only [decrypt_data, if_pos h]

theorem C3_format_error_witness :
    decrypt_data modelPrims "a.b.c" key64 = .decErr .formatError ∧
    decrypt_data modelPrims "a.b.c.d.e" key64 = .decErr .formatError :=
  ⟨C3_format_error modelPrims "a.b.c" key64 (by decide),
   C3_format_error modelPrims "a.b.c.d.e" key64 (by decide)⟩

/-- C9: every blob produced by `encrypt_data`, for every plaintext and
valid key, splits on `'.'` into exactly four segments which are the
URL-safe base64 encodings, in order, of the salt (16 bytes), the nonce
(12 bytes), the ciphertext, and the tag (16 bytes). -/
theorem C9_blob_format (P : GCMPrims) (salt nonce plain : List Nat) (key : String)
    (hk64 : key.length = 64) (hk : (bytesFromHex key.data).isSome)
    (hs : salt.length = 16) (hn : nonce.length = 12)
    (hsb : ∀ b ∈ salt, b < 256) (hnb : ∀ b ∈ nonce, b < 256)
    (hpb : ∀ b ∈ plain, b < 256) :
    ∃ out mk, encrypt_data P salt nonce plain key = some out ∧
      bytesFromHex key.data = some mk ∧
      splitDot out.data =
        [b64encodeList salt, b64encodeList nonce,
         b64encodeList (xorBytes
           (P.keystream (derive_key P mk salt) nonce plain.length) plain),
         b64encodeList (P.gcmTag (derive_key P mk salt) nonce
           (xorBytes (P.keystream (derive_key P mk salt) nonce plain.length) plain))] ∧
      salt.length = 16 ∧ nonce.length = 12 ∧
      (P.gcmTag (derive_key P mk salt) nonce
        (xorBytes (P.keystream (derive_key P mk salt) nonce plain.length)
          plain)).length = 16 := by
  obtain ⟨mk, hmk⟩ := Option.isSome_iff_exists.mp hk
  obtain ⟨out, henc, hsplit⟩ := encrypt_blob_split P salt nonce plain key mk hmk hsb hnb hpb
  exact ⟨out, mk, henc, hmk, hsplit, hs, hn, P.tag_len _ _ _⟩

theorem C9_blob_format_witness :
    ∃ out mk,
      encrypt_data modelPrims (List.replicate 16 7) (List.replicate 12 9)
        [104, 105] key64 = some out ∧
      bytesFromHex key64.data = some mk ∧
      splitDot out.data =
        [b64encodeList (List.replicate 16 7), b64encodeList (List.replicate 12 9),
         b64encodeList (xorBytes
           (modelPrims.keystream (derive_key modelPrims mk (List.replicate 16 7))
             (List.replicate 12 9) ([104, 105] : List Nat).length) [104, 105]),
         b64encodeList (modelPrims.gcmTag
           (derive_key modelPrims mk (List.replicate 16 7)) (List.replicate 12 9)
           (xorBytes (modelPrims.keystream
             (derive_key modelPrims mk (List.replicate 16 7))
             (List.replicate 12 9) ([104, 105] : List Nat).length) [104, 105]))] ∧
      (List.replicate 16 (7 : Nat)).length = 16 ∧
      (List.replicate 12 (9 : Nat)).length = 12 ∧
      (modelPrims.gcmTag (derive_key modelPrims mk (List.replicate 16 7))
        (List.replicate 12 9)
        (xorBytes (modelPrims.keystream
          (derive_key modelPrims mk (List.replicate 16 7))
          (List.replicate 12 9) ([104, 105] : List Nat).length)
          [104, 105])).length = 16 :=
  C9_blob_format modelPrims (List.replicate 16 7) (List.replicate 12 9) [104, 105] key64
    (by decide) (by decide) (by decide) (by decide) (by decide) (by decide) (by decide)

/-- C6 counterexample: `bytes.fromhex` runs outside the `try` blocks of
`decrypt_data`, so a blob of four valid base64 segments decrypted with the
non-hex key `"zz"` fails with a `ValueError`, not a `DecryptionError`:
the claim that every failure of decrypt is reported as a
`DecryptionError` is false at this input. -/
theorem C6_counterexample :
    decrypt_data modelPrims "AA==.AA==.AA==.AA==" "zz" = .otherErr := by decide

/-- C6 amended: every call to `decrypt_data` either fails with a
`DecryptionError`, or succeeds with the fully authenticated XOR-decryption
of the ciphertext (the recomputed tag equals the transmitted one, so no
partial or unauthenticated plaintext is ever returned), or raises a
non-`DecryptionError` — and the last case happens exactly when the key is
not valid hex or the decoded nonce/tag violate the GCM constructor's
parameter limits, both of which run outside the `try` blocks. -/
theorem C6_failure_classification (P : GCMPrims) (enc key : String) :
    (∃ e, decrypt_data P enc key = .decErr e) ∨
    (∃ salt nonce ct tag mk,
        decodeParts (splitDot enc.data) = some (salt, nonce, ct, tag) ∧
        bytesFromHex key.data = some mk ∧
        P.gcmTag (derive_key P mk salt) nonce ct = tag ∧
        decrypt_data P enc key =
          .ok (xorBytes (P.keystream (derive_key P mk salt) nonce ct.length) ct)) ∨
    (decrypt_data P enc key = .otherErr ∧
      (bytesFromHex key.data = none ∨
       ∃ salt nonce ct tag,
         decodeParts (splitDot enc.data) = some (salt, nonce, ct, tag) ∧
         gcmParamsOk nonce tag = false)) := by
  by_cases h4 : (splitDot enc.data).length ≠ 4
  · refine Or.inl ⟨.formatError, ?_⟩
    simp only [decrypt_data, if_pos h4]
  · rcases hdp : decodeParts (splitDot enc.data) with _ | ⟨salt, nonce, ct, tag⟩
    · refine Or.inl ⟨.decodeError, ?_⟩
      simp only [decrypt_data, if_neg h4, hdp]
    · rcases hmk : bytesFromHex key.data with _ | mk
      · refine Or.inr (Or.inr ⟨?_, Or.inl rfl⟩)
        simp only [decrypt_data, if_neg h4, hdp, hmk]
      · by_cases hg : gcmParamsOk nonce tag = true
        · by_cases ht : P.gcmTag (derive_key P mk salt) nonce ct = tag
          · refine Or.inr (Or.inl ⟨salt, nonce, ct, tag, mk, rfl, rfl, ht, ?_⟩)
            simp only [decrypt_data, if_neg h4, hdp, hmk, if_pos hg, if_pos ht]
          · refine Or.inl ⟨.authError, ?_⟩
            simp only [decrypt_data, if_neg h4, hdp, hmk, if_pos hg, if_neg ht]
        · refine Or.inr (Or.inr ⟨?_, Or.inr ⟨salt, nonce, ct, tag, rfl,
            Bool.not_eq_true _ ▸ hg⟩⟩)
          simp only [decrypt_data, if_neg h4, hdp, hmk, if_neg hg]

/-- C5 counterexample: with a non-empty store whose first value is
`"abc"`, decrypting fails with a format-cause `DecryptionError` — not an
authentication failure — yet `check_encryption_key` halts the process
(`sys.exit(1)`) instead of surfacing the error: the `except
DecryptionError` handler of `app/startup.py` treats every decryption
error cause as the fatal wrong-key condition. -/
theorem C5_counterexample :
    check_encryption_key modelPrims ⟨[⟨1, "k", "abc", 0, 0⟩], [(1, "k")]⟩ key64 =
        .fatalExit ∧
    decrypt_data modelPrims "abc" key64 = .decErr .formatError := by decide

/-- C5 amended: the startup check passes for every key when the store is
empty; when the store is non-empty, the first stored value is fetched and
any `DecryptionError` on decrypting it (authentication failure included,
but also format/decode/generic causes) is fatal — the process halts — 
while a non-`DecryptionError` exception propagates to the caller and a
successful decryption passes. -/
theorem C5_startup_check (P : GCMPrims) (st : DBState) (key : String) :
    (st.secrets = [] ∧ check_encryption_key P st key = .passed) ∨
    (∃ v, get_first_secret_value st = some v ∧
      (((∃ e, decrypt_data P v key = .decErr e) ∧
          check_encryption_key P st key = .fatalExit) ∨
       (decrypt_data P v key = .otherErr ∧
          check_encryption_key P st key = .surfaced) ∨
       ((∃ pt, decrypt_data P v key = .ok pt) ∧
          check_encryption_key P st key = .passed))) := by
  rcases hsec : st.secrets with _ | ⟨r, rest⟩
  · left
    refine ⟨rfl, ?_⟩
    simp [check_encryption_key, get_first_secret_value, hsec]
  · right
    have hfirst : get_first_secret_value st = some r.value := by
      simp [get_first_secret_value, hsec]
    refine ⟨r.value, hfirst, ?_⟩
    have hcheck : check_encryption_key P st key =
        match decrypt_data P r.value key with
        | .ok _ => .passed
        | .decErr _ => .fatalExit
        | .otherErr => .surfaced := by
      simp only [check_encryption_key, hfirst]
    rcases hdec : decrypt_data P r.value key with pt | e | _
    · exact Or.inr (Or.inr ⟨⟨pt, rfl⟩, by rw [hcheck, hdec]⟩)
    · exact Or.inl ⟨⟨e, rfl⟩, by rw [hcheck, hdec]⟩
    · exact Or.inr (Or.inl ⟨rfl, by rw [hcheck, hdec]⟩)

/-- C10: no read operation of the store — exact lookup, pattern search, or
first-value fetch — consults the `secrets_fts` index: two states with the
same `secrets` table but arbitrarily different index contents give
identical results for every read. -/
theorem C10_reads_ignore_fts (s1 s2 : DBState) (hs : s1.secrets = s2.secrets)
    (keys : List String) (pattern : String) :
    get_secrets_by_keys s1 keys = get_secrets_by_keys s2 keys ∧
    find_secrets_by_like_pattern s1 pattern = find_secrets_by_like_pattern s2 pattern ∧
    get_first_secret_value s1 = get_first_secret_value s2 := by
  unfold get_secrets_by_keys find_secrets_by_like_pattern get_first_secret_value
  rw [hs]
  exact ⟨rfl, rfl, rfl⟩

theorem C10_reads_ignore_fts_witness :
    get_secrets_by_keys ⟨[⟨1, "k", "v", 0, 0⟩], [(1, "k")]⟩ ["k"] =
        get_secrets_by_keys ⟨[⟨1, "k", "v", 0, 0⟩], [(9, "stale"), (3, "z")]⟩ ["k"] ∧
    find_secrets_by_like_pattern ⟨[⟨1, "k", "v", 0, 0⟩], [(1, "k")]⟩ "k*" =
        find_secrets_by_like_pattern ⟨[⟨1, "k", "v", 0, 0⟩], [(9, "stale"), (3, "z")]⟩ "k*" ∧
    get_first_secret_value ⟨[⟨1, "k", "v", 0, 0⟩], [(1, "k")]⟩ =
        get_first_secret_value ⟨[⟨1, "k", "v", 0, 0⟩], [(9, "stale"), (3, "z")]⟩ :=
  C10_reads_ignore_fts ⟨[⟨1, "k", "v", 0, 0⟩], [(1, "k")]⟩
    ⟨[⟨1, "k", "v", 0, 0⟩], [(9, "stale"), (3, "z")]⟩ rfl ["k"] "k*"

/-- Behaviour of `delete_secrets_by_keys`, unconditionally: the surviving rows are the
non-matching ones and the returned count is the number of matching rows. -/
theorem delete_secrets_spec (st : DBState) (keys : List String) :
    (delete_secrets_by_keys st keys).1.secrets =
      st.secrets.filter (fun r => r.key ∉ keys) ∧
    (delete_secrets_by_keys st keys).2 =
      (st.secrets.filter (fun r => r.key ∈ keys)).length := by
  rcases keys with _ | ⟨k0, rest⟩
  · constructor
    · simp [delete_secrets_by_keys]
    · simp [delete_secrets_by_keys]
  · exact ⟨rfl, rfl⟩

/-- C8: `delete_secrets_by_keys` removes exactly the rows whose key
exactly (case-sensitively, byte-for-byte on the `String`) matches one of
the inputs and returns the number of rows actually removed; adding a key
`k` with no stored row to the input set changes neither the resulting
store nor the count — deleting a nonexistent key is a no-op, not an
error. -/
theorem C8_delete_exact (st : DBState) (keys : List String) (k : String)
    (hk : ∀ r ∈ st.secrets, r.key ≠ k) :
    (delete_secrets_by_keys st keys).1.secrets =
        st.secrets.filter (fun r => r.key ∉ keys) ∧
    (delete_secrets_by_keys st keys).2 =
        (st.secrets.filter (fun r => r.key ∈ keys)).length ∧
    (delete_secrets_by_keys st (k :: keys)).1.secrets =
        (delete_secrets_by_keys st keys).1.secrets ∧
    (delete_secrets_by_keys st (k :: keys)).2 = (delete_secrets_by_keys st keys).2 := by
  have hfilter_in : st.secrets.filter (fun r => r.key ∈ (k :: keys)) =
      st.secrets.filter (fun r => r.key ∈ keys) :=
    List.filter_congr (fun r hr => by simp [List.mem_cons, hk r hr])
  have hfilter_out : st.secrets.filter (fun r => r.key ∉ (k :: keys)) =
      st.secrets.filter (fun r => r.key ∉ keys) :=
    List.filter_congr (fun r hr => by simp [List.mem_cons, hk r hr])
  refine ⟨(delete_secrets_spec st keys).1, (delete_secrets_spec st keys).2, ?_, ?_⟩
  · rw [(delete_secrets_spec st (k :: keys)).1, (delete_secrets_spec st keys).1]
    exact hfilter_out
  · rw [(delete_secrets_spec st (k :: keys)).2, (delete_secrets_spec st keys).2]
    rw [hfilter_in]

theorem C8_delete_exact_witness :
    (delete_secrets_by_keys ⟨[⟨1, "a", "v1", 0, 0⟩, ⟨2, "b", "v2", 0, 0⟩], []⟩
        ["a"]).1.secrets =
      ([⟨1, "a", "v1", 0, 0⟩, ⟨2, "b", "v2", 0, 0⟩] : List SecretRow).filter
        (fun r => r.key ∉ ["a"]) ∧
    (delete_secrets_by_keys ⟨[⟨1, "a", "v1", 0, 0⟩, ⟨2, "b", "v2", 0, 0⟩], []⟩
        ["a"]).2 =
      (([⟨1, "a", "v1", 0, 0⟩, ⟨2, "b", "v2", 0, 0⟩] : List SecretRow).filter
        (fun r => r.key ∈ ["a"])).length ∧
    (delete_secrets_by_keys ⟨[⟨1, "a", "v1", 0, 0⟩, ⟨2, "b", "v2", 0, 0⟩], []⟩
        ["missing", "a"]).1.secrets =
      (delete_secrets_by_keys ⟨[⟨1, "a", "v1", 0, 0⟩, ⟨2, "b", "v2", 0, 0⟩], []⟩
        ["a"]).1.secrets ∧
    (delete_secrets_by_keys ⟨[⟨1, "a", "v1", 0, 0⟩, ⟨2, "b", "v2", 0, 0⟩], []⟩
        ["missing", "a"]).2 =
      (delete_secrets_by_keys ⟨[⟨1, "a", "v1", 0, 0⟩, ⟨2, "b", "v2", 0, 0⟩], []⟩
        ["a"]).2 :=
  C8_delete_exact ⟨[⟨1, "a", "v1", 0, 0⟩, ⟨2, "b", "v2", 0, 0⟩], []⟩ ["a"] "missing"
    (by decide)

/-! ## Upsert lemmas -/

theorem upsert_keys_present (st : DBState) (k v : String) (t : Nat)
    (h : st.secrets.any (fun r => r.key = k)) :
    (add_or_update_secret st k v t).secrets.map SecretRow.key =
      st.secrets.map SecretRow.key := by
  simp only [add_or_update_secret, if_pos h, List.map_map]
  exact List.map_congr_left (fun r _ => by dsimp only [Function.comp]; split <;> rfl)

theorem upsert_keys_absent (st : DBState) (k v : String) (t : Nat)
    (h : ¬ st.secrets.any (fun r => r.key = k)) :
    (add_or_update_secret st k v t).secrets.map SecretRow.key =
      st.secrets.map SecretRow.key ++ [k] := by
  simp only [add_or_update_secret, if_neg h, List.map_append, List.map_cons, List.map_nil]

theorem upsert_nodup (st : DBState) (k v : String) (t : Nat)
    (hnd : (st.secrets.map SecretRow.key).Nodup) :
    ((add_or_update_secret st k v t).secrets.map SecretRow.key).Nodup := by
  by_cases h : st.secrets.any (fun r => r.key = k)
  · rw [upsert_keys_present st k v t h]
    exact hnd
  · rw [upsert_keys_absent st k v t h]
    have hk : k ∉ st.secrets.map SecretRow.key := by
      intro hmem
      obtain ⟨r, hr, hrk⟩ := List.mem_map.mp hmem
      exact h (List.any_eq_true.mpr ⟨r, hr, by simp [hrk]⟩)
    simp [List.nodup_append, hnd, hk]

theorem upsert_any (st : DBState) (k v : String) (t : Nat) :
    (add_or_update_secret st k v t).secrets.any (fun r => r.key = k) := by
  by_cases h : st.secrets.any (fun r => r.key = k)
  · obtain ⟨r0, hr0, hr0k⟩ := List.any_eq_true.mp h
    simp only [add_or_update_secret, if_pos h]
    refine List.any_eq_true.mpr ⟨_, List.mem_map.mpr ⟨r0, hr0, rfl⟩, ?_⟩
    simp only [decide_eq_true_eq] at hr0k
    simp [hr0k]
  · simp only [add_or_update_secret, if_neg h]
    exact List.any_eq_true.mpr ⟨⟨nextId st, k, v, t, t⟩, by simp, by simp⟩

theorem filter_key_single : ∀ (rows : List SecretRow) (k : String),
    (rows.map SecretRow.key).Nodup → rows.any (fun r => r.key = k) →
    ∃ r, rows.filter (fun x => x.key = k) = [r] ∧ r.key = k
  | [], k, _, hany => by simp at hany
  | r :: rest, k, hnd, hany => by
      simp only [List.map_cons, List.nodup_cons] at hnd
      by_cases hr : r.key = k
      · refine ⟨r, ?_, hr⟩
        have hrest : rest.filter (fun x => x.key = k) = [] := by
          refine List.filter_eq_nil_iff.mpr (fun x hx => ?_)
          simp only [decide_eq_true_eq]
          intro hxk
          exact hnd.1 (hr ▸ hxk ▸ List.mem_map.mpr ⟨x, hx, rfl⟩)
        simp [List.filter_cons, hr, hrest]
      · have hany' : rest.any (fun x => x.key = k) := by
          rcases List.any_eq_true.mp hany with ⟨x, hx, hxk⟩
          rcases List.mem_cons.mp hx with rfl | hx'
          · simp only [decide_eq_true_eq] at hxk
            exact absurd hxk hr
          · exact List.any_eq_true.mpr ⟨x, hx', hxk⟩
        obtain ⟨r1, hr1, hr1k⟩ := filter_key_single rest k hnd.2 hany'
        exact ⟨r1, by simp [List.filter_cons, hr, hr1], hr1k⟩

theorem upsert_filter_key (st : DBState) (k v : String) (t : Nat) :
    (add_or_update_secret st k v t).secrets.filter (fun r => r.key = k) =
      (if st.secrets.any (fun r => r.key = k) then
        (st.secrets.filter (fun r => r.key = k)).map
          (fun r => { r with value := v, updated_at := t })
      else [⟨nextId st, k, v, t, t⟩]) := by
  by_cases h : st.secrets.any (fun r => r.key = k)
  · rw [if_pos h]
    simp only [add_or_update_secret, if_pos h]
    rw [List.filter_map]
    have hfc : st.secrets.filter
        ((fun (r : SecretRow) => decide (r.key = k)) ∘
          (fun r => if r.key = k then
            { r with value := v, updated_at := t } else r)) =
        st.secrets.filter (fun r => r.key = k) := by
      refine List.filter_congr (fun r _ => ?_)
      dsimp only [Function.comp]
      split <;> simp_all
    rw [hfc]
    refine List.map_congr_left (fun r hr => ?_)
    have hrk : r.key = k := by simpa using List.of_mem_filter hr
    rw [if_pos hrk]
  · rw [if_neg h]
    simp only [add_or_update_secret, if_neg h, List.filter_append]
    have h1 : st.secrets.filter (fun r => r.key = k) = [] := by
      refine List.filter_eq_nil_iff.mpr (fun r hr => ?_)
      simp only [decide_eq_true_eq]
      intro hrk
      exact h (List.any_eq_true.mpr ⟨r, hr, by simp [hrk]⟩)
    simp [h1]

theorem upsert_filter_ne (st : DBState) (k v : String) (t : Nat) :
    (add_or_update_secret st k v t).secrets.filter (fun r => r.key ≠ k) =
      st.secrets.filter (fun r => r.key ≠ k) := by
  by_cases h : st.secrets.any (fun r => r.key = k)
  · simp only [add_or_update_secret, if_pos h]
    rw [List.filter_map]
    have hfc : st.secrets.filter
        ((fun (r : SecretRow) => decide (r.key ≠ k)) ∘
          (fun r => if r.key = k then
            { r with value := v, updated_at := t } else r)) =
        st.secrets.filter (fun r => r.key ≠ k) := by
      refine List.filter_congr (fun r _ => ?_)
      dsimp only [Function.comp]
      split <;> simp_all
    rw [hfc]
    refine (List.map_congr_left (fun r hr => ?_)).trans (List.map_id _)
    have hrk : r.key ≠ k := by
      have := List.of_mem_filter hr
      simpa using this
    simp [if_neg hrk]
  · simp only [add_or_update_secret, if_neg h, List.filter_append]
    simp

theorem upsert_filter_key_fields (st : DBState) (k v : String) (t : Nat) :
    ∀ r ∈ (add_or_update_secret st k v t).secrets.filter (fun x => x.key = k),
      r.value = v ∧ r.updated_at = t := by
  rw [upsert_filter_key]
  split
  · intro r hr
    obtain ⟨r0, _, rfl⟩ := List.mem_map.mp hr
    exact ⟨rfl, rfl⟩
  · intro r hr
    simp only [List.mem_singleton] at hr
    subst hr
    exact ⟨rfl, rfl⟩

/-- C7: `upsert(k, v1)` followed by `upsert(k, v2)` leaves exactly one row
for `k`; its value is `v2` and its `updated_at` is the second timestamp
(changed, timestamps differing), while its `created_at` and its row
identity (`id`) are unchanged from the first upsert; every row with a
different key is untouched by the second upsert. -/
theorem C7_upsert_twice (st : DBState) (k v1 v2 : String) (t1 t2 : Nat)
    (hnd : (st.secrets.map SecretRow.key).Nodup) (hne : t1 ≠ t2) :
    ∃ r1 r2 : SecretRow,
      (add_or_update_secret st k v1 t1).secrets.filter (fun r => r.key = k) = [r1] ∧
      (add_or_update_secret (add_or_update_secret st k v1 t1) k v2 t2).secrets.filter
        (fun r => r.key = k) = [r2] ∧
      r2.key = k ∧ r2.value = v2 ∧ r2.updated_at = t2 ∧
      r2.updated_at ≠ r1.updated_at ∧
      r2.created_at = r1.created_at ∧ r2.id = r1.id ∧
      (add_or_update_secret (add_or_update_secret st k v1 t1) k v2 t2).secrets.filter
          (fun r => r.key ≠ k) =
        (add_or_update_secret st k v1 t1).secrets.filter (fun r => r.key ≠ k) := by
  have h1nd := upsert_nodup st k v1 t1 hnd
  have h1any := upsert_any st k v1 t1
  obtain ⟨r1, hr1, hr1k⟩ :=
    filter_key_single (add_or_update_secret st k v1 t1).secrets k h1nd h1any
  have hr1fields : r1.value = v1 ∧ r1.updated_at = t1 :=
    upsert_filter_key_fields st k v1 t1 r1 (hr1 ▸ List.mem_singleton.mpr rfl)
  have h2 := upsert_filter_key (add_or_update_secret st k v1 t1) k v2 t2
  rw [if_pos h1any, hr1] at h2
  refine ⟨r1, { r1 with value := v2, updated_at := t2 }, hr1, ?_, hr1k, rfl, rfl, ?_, rfl,
    rfl, upsert_filter_ne (add_or_update_secret st k v1 t1) k v2 t2⟩
  · rw [h2]
    rfl
  · simpa [hr1fields.2] using fun hcontra => hne (hcontra.symm)

theorem C7_upsert_twice_witness :
    ∃ r1 r2 : SecretRow,
      (add_or_update_secret ⟨[], []⟩ "k" "v1" 0).secrets.filter
        (fun r => r.key = "k") = [r1] ∧
      (add_or_update_secret (add_or_update_secret ⟨[], []⟩ "k" "v1" 0)
        "k" "v2" 1).secrets.filter (fun r => r.key = "k") = [r2] ∧
      r2.key = "k" ∧ r2.value = "v2" ∧ r2.updated_at = 1 ∧
      r2.updated_at ≠ r1.updated_at ∧
      r2.created_at = r1.created_at ∧ r2.id = r1.id ∧
      (add_or_update_secret (add_or_update_secret ⟨[], []⟩ "k" "v1" 0)
          "k" "v2" 1).secrets.filter (fun r => r.key ≠ "k") =
        (add_or_update_secret ⟨[], []⟩ "k" "v1" 0).secrets.filter
          (fun r => r.key ≠ "k") :=
  C7_upsert_twice ⟨[], []⟩ "k" "v1" "v2" 0 1 (by decide) (by decide)

/-! ## LIKE-pattern lemmas -/

theorem sqlLike_no_wildcard : ∀ p s : List Char,
    (∀ c ∈ p, c ≠ '%' ∧ c ≠ '_') → (sqlLike p s = true ↔ p = s)
  | [], s, _ => by cases s <;> simp [sqlLike]
  | p :: ps, s, h => by
      have hp := h p (by simp)
      cases s with
      | nil => simp [sqlLike, if_neg hp.1]
      | cons c s' =>
          have ih := sqlLike_no_wildcard ps s' (fun x hx => h x (by simp [hx]))
          simp [sqlLike, if_neg hp.1, hp.2, ih]

/-- C4 counterexample: the SQL `LIKE` wildcard `_` is not escaped by
`find_secrets_by_like_pattern`, so the pattern `"a_"`, which contains no
`*`, nevertheless matches the stored key `"ab"` — the pattern does not
behave as an exact-match search. -/
theorem C4_counterexample :
    (¬ '*' ∈ "a_".data) ∧
    find_secrets_by_like_pattern ⟨[⟨1, "ab", "v", 0, 0⟩], [(1, "ab")]⟩ "a_" =
      [("ab", "v")] ∧
    ("ab" : String) ≠ "a_" := by decide

/-- C4 amended: for every pattern containing none of `*`, `%` and `_`
(the SQL `LIKE` metacharacters are passed through unescaped),
`find_secrets_by_like_pattern` returns exactly the rows whose key is
byte-for-byte equal to the pattern, for every store state. -/
theorem C4_no_wildcard_exact (st : DBState) (pattern : String)
    (h : ∀ c ∈ pattern.data, c ≠ '*' ∧ c ≠ '%' ∧ c ≠ '_') :
    find_secrets_by_like_pattern st pattern =
      (st.secrets.filter (fun r => r.key = pattern)).map (fun r => (r.key, r.value)) := by
  have hsp : starToPercent pattern.data = pattern.data := by
    unfold starToPercent
    refine (List.map_congr_left fun c hc => ?_).trans (List.map_id _)
    rw [if_neg (h c hc).1]
    rfl
  unfold find_secrets_by_like_pattern
  rw [hsp]
  congr 1
  refine List.filter_congr (fun r _ => ?_)
  have hiff := sqlLike_no_wildcard pattern.data r.key.data
    (fun c hc => ⟨(h c hc).2.1, (h c hc).2.2⟩)
  rw [Bool.eq_iff_iff, hiff, decide_eq_true_eq]
  constructor
  · intro he
    exact String.ext he.symm
  · intro he
    rw [he]

theorem C4_no_wildcard_exact_witness :
    find_secrets_by_like_pattern ⟨[⟨1, "ab", "v", 0, 0⟩, ⟨2, "ac", "w", 0, 0⟩], []⟩ "ab" =
      (([⟨1, "ab", "v", 0, 0⟩, ⟨2, "ac", "w", 0, 0⟩] : List SecretRow).filter
        (fun r => r.key = "ab")).map (fun r => (r.key, r.value)) :=
  C4_no_wildcard_exact ⟨[⟨1, "ab", "v", 0, 0⟩, ⟨2, "ac", "w", 0, 0⟩], []⟩ "ab" (by decide)

/-! ## Resolution lemmas (`routes.py` read/delete paths) -/

theorem rowsOf_fst (st : DBState) :
    (rowsOf st).map Prod.fst = st.secrets.map SecretRow.key := by
  simp [rowsOf, List.map_map]

theorem get_subset (st : DBState) (ks : List String) :
    ∀ x ∈ get_secrets_by_keys st ks, x ∈ rowsOf st := by
  intro x hx
  unfold get_secrets_by_keys at hx
  split at hx
  · simp at hx
  · obtain ⟨r, hr, rfl⟩ := List.mem_map.mp hx
    exact List.mem_map.mpr ⟨r, List.mem_of_mem_filter hr, rfl⟩

theorem find_subset (st : DBState) (p : String) :
    ∀ x ∈ find_secrets_by_like_pattern st p, x ∈ rowsOf st := by
  intro x hx
  unfold find_secrets_by_like_pattern at hx
  obtain ⟨r, hr, rfl⟩ := List.mem_map.mp hx
  exact List.mem_map.mpr ⟨r, List.mem_of_mem_filter hr, rfl⟩

theorem get_keys_sublist (st : DBState) (ks : List String) :
    ((get_secrets_by_keys st ks).map Prod.fst).Sublist
      (st.secrets.map SecretRow.key) := by
  unfold get_secrets_by_keys
  split
  · simp
  · rw [List.map_map]
    exact (List.filter_sublist _).map _

theorem find_keys_sublist (st : DBState) (p : String) :
    ((find_secrets_by_like_pattern st p).map Prod.fst).Sublist
      (st.secrets.map SecretRow.key) := by
  unfold find_secrets_by_like_pattern
  rw [List.map_map]
  exact (List.filter_sublist _).map _

theorem eq_of_mem_of_fst_nodup : ∀ (l : List (String × String)),
    (l.map Prod.fst).Nodup → ∀ x ∈ l, ∀ y ∈ l, x.1 = y.1 → x = y
  | [], _, x, hx, _, _, _ => absurd hx (List.not_mem_nil x)
  | a :: l, hnd, x, hx, y, hy, hxy => by
      simp only [List.map_cons, List.nodup_cons] at hnd
      rcases List.mem_cons.mp hx with rfl | hx' <;>
        rcases List.mem_cons.mp hy with rfl | hy'
      · rfl
      · exact absurd (List.mem_map.mpr ⟨y, hy', hxy.symm⟩) hnd.1
      · exact absurd (List.mem_map.mpr ⟨x, hx', hxy⟩) hnd.1
      · exact eq_of_mem_of_fst_nodup l hnd.2 x hx' y hy' hxy

theorem resolve_fold_invariant (st : DBState)
    (hnd : (st.secrets.map SecretRow.key).Nodup) :
    ∀ (pats : List String) (acc : List (String × String)),
      (∀ x ∈ acc, x ∈ rowsOf st) → (acc.map Prod.fst).Nodup →
      (∀ x ∈ pats.foldl (fun acc p =>
          acc ++ (find_secrets_by_like_pattern st p).filter (fun s => s ∉ acc)) acc,
        x ∈ rowsOf st) ∧
      ((pats.foldl (fun acc p =>
          acc ++ (find_secrets_by_like_pattern st p).filter (fun s => s ∉ acc))
        acc).map Prod.fst).Nodup
  | [], acc, hsub, hacc => ⟨hsub, hacc⟩
  | p :: pats, acc, hsub, hacc => by
      rw [List.foldl_cons]
      refine resolve_fold_invariant st hnd pats _ ?_ ?_
      · intro x hx
        rcases List.mem_append.mp hx with hxa | hxf
        · exact hsub x hxa
        · exact find_subset st p x (List.mem_of_mem_filter hxf)
      · rw [List.map_append, List.nodup_append]
        refine ⟨hacc, ?_, ?_⟩
        · refine List.Nodup.sublist ?_ (List.Nodup.sublist (find_keys_sublist st p) hnd)
          exact (List.filter_sublist _).map _
        · intro a ha1 ha2
          obtain ⟨x, hx, hxa⟩ := List.mem_map.mp ha1
          obtain ⟨y, hy, hya⟩ := List.mem_map.mp ha2
          have hyfind := List.mem_of_mem_filter hy
          have hynot : y ∉ acc := by
            have := List.of_mem_filter hy
            simpa using this
          have hxy : x = y := by
            refine eq_of_mem_of_fst_nodup (rowsOf st) ?_ x (hsub x hx) y
              (find_subset st p y hyfind) (by rw [hxa, hya])
            rw [rowsOf_fst st]
            exact hnd
          exact hynot (hxy ▸ hx)

theorem filter_mem_length : ∀ (rows : List SecretRow) (ks : List String),
    (rows.map SecretRow.key).Nodup → ks.Nodup →
    (∀ k ∈ ks, k ∈ rows.map SecretRow.key) →
    (rows.filter (fun r => r.key ∈ ks)).length = ks.length
  | [], ks, _, _, hsub => by
      cases ks with
      | nil => simp
      | cons k ks => exact absurd (hsub k (by simp)) (by simp)
  | r :: rest, ks, hnd, hknd, hsub => by
      simp only [List.map_cons, List.nodup_cons] at hnd
      by_cases hr : r.key ∈ ks
      · rw [List.filter_cons_of_pos (by simpa using hr)]
        have hres : rest.filter (fun x => x.key ∈ ks) =
            rest.filter (fun x => x.key ∈ ks.erase r.key) := by
          refine List.filter_congr (fun x hx => ?_)
          have hxk : x.key ≠ r.key := fun he =>
            hnd.1 (he ▸ List.mem_map.mpr ⟨x, hx, rfl⟩)
          simp [List.mem_erase_of_ne hxk]
        have ih := filter_mem_length rest (ks.erase r.key) hnd.2 (hknd.erase _)
          (fun k hk => by
            have hkne : k ≠ r.key := (hknd.mem_erase_iff.mp hk).1
            rcases List.mem_cons.mp (hsub k (List.mem_of_mem_erase hk)) with he | hmem
            · exact absurd he hkne
            · exact hmem)
        rw [hres]
        simp only [List.length_cons]
        rw [ih]
        have hlen := List.length_erase_of_mem hr
        have hpos : 0 < ks.length := List.length_pos_of_mem hr
        omega
      · rw [List.filter_cons_of_neg (by simpa using hr)]
        refine filter_mem_length rest ks hnd.2 hknd (fun k hk => ?_)
        rcases List.mem_cons.mp (hsub k hk) with he | hmem
        · exact absurd (he ▸ hk) hr
        · exact hmem

/-- C2 counterexample: the read path `get_secrets` concatenates exact-key
results and pattern results with no deduplication, so over the single
stored key `"service-A-token"` the input list
`["service-A-token", "service-*"]` resolves that key twice — the read
path does not yield each stored key at most once. -/
theorem C2_counterexample :
    (resolveRead ⟨[⟨1, "service-A-token", "v1", 0, 0⟩], [(1, "service-A-token")]⟩
        ["service-A-token", "service-*"]).map Prod.fst =
      ["service-A-token", "service-A-token"] := by decide

/-- C2 amended: the delete path `delete_secrets` does deduplicate —
whenever the store's keys are distinct, its resolution yields each stored
key at most once, and the subsequent delete over the resolved set removes
exactly one row per resolved entry (the returned count equals the size of
the resolved set).  The read path `get_secrets` performs no such
deduplication. -/
theorem C2_delete_dedup (st : DBState) (key_list : List String)
    (hnd : (st.secrets.map SecretRow.key).Nodup) :
    ((resolveDelete st key_list).map Prod.fst).Nodup ∧
    (deleteResolved st key_list).2 = (resolveDelete st key_list).length := by
  have hinit_sub := get_subset st (key_list.filter (fun k => ¬ '*' ∈ k.data))
  have hinit_nd : ((get_secrets_by_keys st
      (key_list.filter (fun k => ¬ '*' ∈ k.data))).map Prod.fst).Nodup :=
    List.Nodup.sublist (get_keys_sublist st _) hnd
  have hinv := resolve_fold_invariant st hnd (key_list.filter (fun k => '*' ∈ k.data))
    (get_secrets_by_keys st (key_list.filter (fun k => ¬ '*' ∈ k.data)))
    hinit_sub hinit_nd
  have hres_eq : resolveDelete st key_list =
      (key_list.filter (fun k => '*' ∈ k.data)).foldl
        (fun acc p => acc ++ (find_secrets_by_like_pattern st p).filter
          (fun s => s ∉ acc))
        (get_secrets_by_keys st (key_list.filter (fun k => ¬ '*' ∈ k.data))) := rfl
  have hnodup : ((resolveDelete st key_list).map Prod.fst).Nodup := by
    rw [hres_eq]
    exact hinv.2
  have hsubset : ∀ x ∈ resolveDelete st key_list, x ∈ rowsOf st := by
    rw [hres_eq]
    exact hinv.1
  refine ⟨hnodup, ?_⟩
  simp only [deleteResolved]
  by_cases hemp : (resolveDelete st key_list).isEmpty
  · rw [if_pos hemp, List.isEmpty_iff.mp hemp]
    rfl
  · rw [if_neg hemp]
    rw [(delete_secrets_spec st ((resolveDelete st key_list).map Prod.fst)).2]
    rw [filter_mem_length st.secrets ((resolveDelete st key_list).map Prod.fst) hnd hnodup
      (fun k hk => ?_), List.length_map]
    obtain ⟨x, hx, rfl⟩ := List.mem_map.mp hk
    have := hsubset x hx
    rw [← rowsOf_fst st]
    exact List.mem_map.mpr ⟨x, this, rfl⟩

theorem C2_delete_dedup_witness :
    ((resolveDelete ⟨[⟨1, "service-A-token", "v1", 0, 0⟩, ⟨2, "common-key", "v2", 0, 0⟩],
        []⟩ ["service-*", "common-key"]).map Prod.fst).Nodup ∧
    (deleteResolved ⟨[⟨1, "service-A-token", "v1", 0, 0⟩, ⟨2, "common-key", "v2", 0, 0⟩],
        []⟩ ["service-*", "common-key"]).2 =
      (resolveDelete ⟨[⟨1, "service-A-token", "v1", 0, 0⟩,
        ⟨2, "common-key", "v2", 0, 0⟩], []⟩ ["service-*", "common-key"]).length :=
  C2_delete_dedup ⟨[⟨1, "service-A-token", "v1", 0, 0⟩, ⟨2, "common-key", "v2", 0, 0⟩], []⟩
    ["service-*", "common-key"] (by decide)

end Vault
